import Mathlib

/-!
Verification of the heatmap-to-keypoint decoding algorithm of
`chainer_/chainercv2/models/simplepose_coco.py` (`SimplePose.__call__`).

Floating-point heatmap values are embedded as exact rationals; machine
indices are naturals.  The vectorized numpy pipeline is embedded step by
step: the row-major flattening performed by `F.reshape`, the
first-occurrence `argmax`, the maximum (`F.max`), the positivity mask,
the `keys_x`/`keys_y` arrays, and the in-place sub-pixel refinement loop
(embedded as a fold threading the heatmap together with the output
array, since the loop mutates the output array in place while reading
the heatmap).
-/

set_option maxRecDepth 100000

/-- A dense 4-D heatmap tensor of shape `(B, K, H, W)`: batch size,
keypoint count, spatial height and width, with a value for each index
quadruple `(b, k, row, col)`. -/
structure Heatmap where
  B : ℕ
  K : ℕ
  H : ℕ
  W : ℕ
  val : ℕ → ℕ → ℕ → ℕ → ℚ

/-- Embedding of `np.sign` on the (exactly represented) heatmap values. -/
def npSign (v : ℚ) : ℚ :=
  if 0 < v then 1 else if v < 0 then -1 else 0

/-- Helper for the first-occurrence argmax: scans the remaining list,
carrying the position of the next element and the best (index, value)
pair so far; the best pair is replaced only on a strictly larger value,
which reproduces the numpy argmax tie-break (first occurrence wins). -/
def argmaxAux : List ℚ → ℕ → ℕ × ℚ → ℕ × ℚ
  | [], _, best => best
  | v :: rest, i, best =>
      if best.2 < v then argmaxAux rest (i + 1) (i, v)
      else argmaxAux rest (i + 1) best

/-- Embedding of `F.argmax` over the flattened slice: index of the first
occurrence of the maximum value (row-major scan order). -/
def argmaxList : List ℚ → ℕ
  | [] => 0
  | v :: rest => (argmaxAux rest 1 (0, v)).1

/-- Embedding of `F.max` over the flattened slice. -/
def maxList : List ℚ → ℚ
  | [] => 0
  | v :: rest => rest.foldl max v

/-- Row `(b, k)` of `heatmap_vector = F.reshape(heatmap, (batch, keypoints, -1))`:
the row-major flattening of the `(H, W)` slice, element `i` being the
heatmap value at row `i / W` and column `i % W`. -/
def heatmap_vector (hm : Heatmap) (b k : ℕ) : List ℚ :=
  (List.range (hm.H * hm.W)).map (fun i => hm.val b k (i / hm.W) (i % hm.W))

/-- Entry `(b, k)` of `scores = F.max(heatmap_vector, axis=2)`. -/
def scores (hm : Heatmap) (b k : ℕ) : ℚ :=
  maxList (heatmap_vector hm b k)

/-- Entry `(b, k)` of `scores_mask = (scores.array > 0.0)` (as 0 or 1). -/
def scores_mask (hm : Heatmap) (b k : ℕ) : ℕ :=
  if 0 < scores hm b k then 1 else 0

/-- Entry `(b, k)` of `keys_x = (indices % out_size[1]) * scores_mask`,
where `out_size[1]` is the configured output width `outW`. -/
def keys_x (outW : ℕ) (hm : Heatmap) (b k : ℕ) : ℕ :=
  (argmaxList (heatmap_vector hm b k) % outW) * scores_mask hm b k

/-- Entry `(b, k)` of `keys_y = (indices // out_size[1]) * scores_mask`. -/
def keys_y (outW : ℕ) (hm : Heatmap) (b k : ℕ) : ℕ :=
  (argmaxList (heatmap_vector hm b k) / outW) * scores_mask hm b k

/-- The output array of shape `(B, K, 3)`, one `(x, y, score)` triple per
`(b, k)` cell. -/
abbrev OutArr := ℕ → ℕ → ℚ × ℚ × ℚ

/-- The keypoint array before the refinement loop:
`keypoints = F.concat((keys_x, keys_y, scores), axis=2)`. -/
def initKeypoints (outW : ℕ) (hm : Heatmap) : OutArr :=
  fun b k => ((keys_x outW hm b k : ℚ), (keys_y outW hm b k : ℚ), scores hm b k)

/-- Body of one iteration of the refinement loop at cell `(b, k)`:
when `(1 < px < out_size[1] - 1) and (1 < py < out_size[0] - 1)` the two
coordinates are incremented by a quarter of the sign of the neighbor
difference, otherwise the cell is left untouched. -/
def refineCell (outH outW : ℕ) (hm : Heatmap) (b k : ℕ) (cell : ℚ × ℚ × ℚ) :
    ℚ × ℚ × ℚ :=
  let px := keys_x outW hm b k
  let py := keys_y outW hm b k
  if 1 < px ∧ px < outW - 1 ∧ 1 < py ∧ py < outH - 1 then
    (cell.1 + npSign (hm.val b k py (px + 1) - hm.val b k py (px - 1)) * (1 / 4),
     cell.2.1 + npSign (hm.val b k (py + 1) px - hm.val b k (py - 1) px) * (1 / 4),
     cell.2.2)
  else cell

/-- One step of the refinement loop on the loop state: the heatmap being
read together with the keypoint array being updated in place.  Only the
cell `(b, k)` of the output array is written. -/
def refineStepS (outH outW : ℕ) (st : Heatmap × OutArr) (p : ℕ × ℕ) :
    Heatmap × OutArr :=
  (st.1, fun b k =>
    if b = p.1 ∧ k = p.2 then refineCell outH outW st.1 p.1 p.2 (st.2 p.1 p.2)
    else st.2 b k)

/-- Iteration domain of the nested loop `for b in range(batch): for k in
range(keypoints)`, in execution order. -/
def pairsBK (B K : ℕ) : List (ℕ × ℕ) :=
  (List.range B).flatMap (fun b => (List.range K).map (fun k => (b, k)))

/-- The decode: initial keypoint array followed by the full refinement
loop, returning the final loop state (heatmap, keypoint array). -/
def decodeS (outH outW : ℕ) (hm : Heatmap) : Heatmap × OutArr :=
  List.foldl (refineStepS outH outW) (hm, initKeypoints outW hm) (pairsBK hm.B hm.K)

/-- The returned keypoint batch result, as the nested batch-major,
keypoint-index-major list of `(x, y, score)` triples. -/
def decodeList (outH outW : ℕ) (hm : Heatmap) : List (List (ℚ × ℚ × ℚ)) :=
  (List.range hm.B).map (fun b =>
    (List.range hm.K).map (fun k => (decodeS outH outW hm).2 b k))

/-- Construction-time configuration and network of a `SimplePose`
model: the `return_heatmap` flag and the input size are fixed in
`__init__`; `forward` stands for the externally trained
backbone/decoder/final-block pipeline producing the heatmap. -/
structure SimplePose (α : Type) where
  return_heatmap : Bool
  in_size : ℕ × ℕ
  forward : α → Heatmap

/-- The configured output grid size,
`self.out_size = (in_size[0] // 4, in_size[1] // 4)`. -/
def SimplePose.out_size {α : Type} (m : SimplePose α) : ℕ × ℕ :=
  (m.in_size.1 / 4, m.in_size.2 / 4)

/-- Embedding of `SimplePose.__call__`: produce the heatmap, return it
unprocessed when `return_heatmap` is set, otherwise run the decode. -/
def SimplePose.call {α : Type} (m : SimplePose α) (x : α) :
    Heatmap ⊕ List (List (ℚ × ℚ × ℚ)) :=
  let heatmap := m.forward x
  if m.return_heatmap then Sum.inl heatmap
  else Sum.inr (decodeList m.out_size.1 m.out_size.2 heatmap)

/-! ### Example heatmaps used as witnesses -/

/-- The 5 by 5 single-slice heatmap with an interior peak of 5 at
(row 2, col 2) and asymmetric neighbors 3, 1, 1, 1. -/
def exHm5 : Heatmap :=
  ⟨1, 1, 5, 5, fun _ _ r c =>
    if r = 2 ∧ c = 2 then 5 else if r = 2 ∧ c = 3 then 3
    else if r = 2 ∧ c = 1 then 1 else if r = 1 ∧ c = 2 then 1
    else if r = 3 ∧ c = 2 then 1 else 0⟩

/-- The flat positive 4 by 4 single-slice heatmap (all ones). -/
def exFlat : Heatmap := ⟨1, 1, 4, 4, fun _ _ _ _ => 1⟩

/-- A 2 by 2 single-slice heatmap whose values are all negative. -/
def exNeg : Heatmap := ⟨1, 1, 2, 2, fun _ _ _ _ => (-1 : ℚ)⟩

/-! ### The decode applied to a tensor of arbitrary rank -/

/-- A dense tensor of arbitrary rank: its dimension list together with
its row-major flat data. -/
structure TensorN where
  dims : List ℕ
  data : List ℚ

/-- Modelled from the spec: the spec posits an `InvalidShapeError`
signaled on malformed heatmap shapes before any indexing; the source
defines no such error and performs no shape validation, so the
constructor `invalidShape` exists only to state that claim.  The other
constructors stand for the errors the underlying array library actually
raises: `reshapeError` when `F.reshape` cannot build the requested view,
`valueError` for an argmax over an empty axis or a shape-mismatched
in-place update, and `indexError` for out-of-range or over-ranked
indexing. -/
inductive DecodeErr where
  | invalidShape : DecodeErr
  | reshapeError : DecodeErr
  | valueError : DecodeErr
  | indexError : DecodeErr
deriving DecidableEq

/-- Dimension `i` of a tensor. -/
def dimAt (t : TensorN) (i : ℕ) : ℕ := t.dims.getD i 0

/-- Row `(b, k)` of the `(batch, kpts, s)` view that
`F.reshape(heatmap, (batch, keypoints, -1))` lays over the flat data. -/
def vecRow (t : TensorN) (kpts s b k : ℕ) : List ℚ :=
  (List.range s).map (fun i => t.data.getD ((b * kpts + k) * s + i) 0)

/-- The positivity mask of row `(b, k)` of the reshaped view. -/
def maskGen (t : TensorN) (kpts s b k : ℕ) : ℕ :=
  if 0 < maxList (vecRow t kpts s b k) then 1 else 0

/-- `keys_x` over the reshaped view. -/
def kxGen (outW : ℕ) (t : TensorN) (kpts s b k : ℕ) : ℕ :=
  (argmaxList (vecRow t kpts s b k) % outW) * maskGen t kpts s b k

/-- `keys_y` over the reshaped view. -/
def kyGen (outW : ℕ) (t : TensorN) (kpts s b k : ℕ) : ℕ :=
  (argmaxList (vecRow t kpts s b k) / outW) * maskGen t kpts s b k

/-- Strided read `t[b, k, r, c]` of a rank-4 tensor. -/
def val4 (t : TensorN) (b k r c : ℕ) : ℚ :=
  t.data.getD (((b * dimAt t 1 + k) * dimAt t 2 + r) * dimAt t 3 + c) 0

/-- The keypoint array before the loop, over the reshaped view. -/
def initGen (outW kpts s : ℕ) (t : TensorN) : OutArr :=
  fun b k => ((kxGen outW t kpts s b k : ℚ), (kyGen outW t kpts s b k : ℚ),
    maxList (vecRow t kpts s b k))

/-- One iteration of the refinement loop over a tensor of arbitrary
rank, with the array-library indexing semantics: the slice
`hm = heatmap[b, k, :, :]` taken at the top of the loop body raises an
index error when the tensor has rank below 4 or `b`, `k` are out of
range; when the refinement fires, a rank above 4 makes the neighbor
reads slices rather than scalars and the in-place update raises a value
error, and a neighbor index beyond the spatial dimensions raises an
index error. -/
def refineGenStep (outH outW kpts s : ℕ) (t : TensorN)
    (cells : OutArr) (p : ℕ × ℕ) : Except DecodeErr OutArr :=
  if t.dims.length < 4 then .error .indexError
  else if ¬ (p.1 < dimAt t 0 ∧ p.2 < dimAt t 1) then .error .indexError
  else if 1 < kxGen outW t kpts s p.1 p.2 ∧ kxGen outW t kpts s p.1 p.2 < outW - 1 ∧
      1 < kyGen outW t kpts s p.1 p.2 ∧ kyGen outW t kpts s p.1 p.2 < outH - 1 then
    if t.dims.length ≠ 4 then .error .valueError
    else if ¬ (kyGen outW t kpts s p.1 p.2 + 1 < dimAt t 2 ∧
        kxGen outW t kpts s p.1 p.2 + 1 < dimAt t 3) then .error .indexError
    else .ok (fun b k =>
      if b = p.1 ∧ k = p.2 then
        ((cells p.1 p.2).1
            + npSign (val4 t p.1 p.2 (kyGen outW t kpts s p.1 p.2)
                  (kxGen outW t kpts s p.1 p.2 + 1)
                - val4 t p.1 p.2 (kyGen outW t kpts s p.1 p.2)
                  (kxGen outW t kpts s p.1 p.2 - 1)) * (1 / 4),
         (cells p.1 p.2).2.1
            + npSign (val4 t p.1 p.2 (kyGen outW t kpts s p.1 p.2 + 1)
                  (kxGen outW t kpts s p.1 p.2)
                - val4 t p.1 p.2 (kyGen outW t kpts s p.1 p.2 - 1)
                  (kxGen outW t kpts s p.1 p.2)) * (1 / 4),
         (cells p.1 p.2).2.2)
      else cells b k)
  else .ok cells

/-- The decode body of `SimplePose.__call__` applied to a heatmap tensor
of arbitrary shape: `batch` is read from the first dimension, the
reshape to `(batch, keypoints, -1)` fails when the known axes multiply
to zero or do not divide the data size, the argmax fails on an empty
reshaped axis, and the refinement loop then runs over all `(b, k)` with
the indexing semantics of `refineGenStep`.  The source performs no shape
validation of its own: no path produces `invalidShape`. -/
def decodeGeneral (outH outW kpts : ℕ) (t : TensorN) :
    Except DecodeErr (List (List (ℚ × ℚ × ℚ))) :=
  let batch := t.dims.headD 0
  if batch * kpts = 0 ∨ ¬ (batch * kpts ∣ t.data.length) then .error .reshapeError
  else
    let s := t.data.length / (batch * kpts)
    if s = 0 then .error .valueError
    else
      Except.map
        (fun cells => (List.range batch).map (fun b =>
          (List.range kpts).map (fun k => cells b k)))
        ((pairsBK batch kpts).foldlM (refineGenStep outH outW kpts s t)
          (initGen outW kpts s t))

/-- A 3-dimensional tensor of shape (1, 2, 16), all zeros. -/
def ex3D : TensorN := ⟨[1, 2, 16], List.replicate 32 0⟩

/-- A 3-dimensional tensor of shape (2, 3, 4), all ones. -/
def ex3Db : TensorN := ⟨[2, 3, 4], List.replicate 24 1⟩


/-! ### The decode over the IEEE value domain (finite values,
infinities and NaN) -/

/-- The float value domain with the non-finite IEEE values: NaN,
positive and negative infinity, and the finite values (represented
exactly).  All the operations on the decode path are discrete and
rounding-free, so the NaN/Inf behavior of the source is captured
exactly. -/
inductive RFloat where
  | nan : RFloat
  | pinf : RFloat
  | ninf : RFloat
  | fin : ℚ → RFloat
deriving DecidableEq

/-- Whether a value is NaN. -/
def RFloat.isNan : RFloat → Bool
  | .nan => true
  | _ => false

/-- IEEE strict less-than: every comparison involving NaN is false. -/
def flt : RFloat → RFloat → Bool
  | .nan, _ => false
  | _, .nan => false
  | .pinf, _ => false
  | _, .pinf => true
  | .ninf, .ninf => false
  | .ninf, .fin _ => true
  | .fin _, .ninf => false
  | .fin a, .fin b => decide (a < b)

/-- IEEE less-or-equal: every comparison involving NaN is false. -/
def fle : RFloat → RFloat → Bool
  | .nan, _ => false
  | _, .nan => false
  | .ninf, _ => true
  | _, .pinf => true
  | .pinf, _ => false
  | .fin _, .ninf => false
  | .fin a, .fin b => decide (a ≤ b)

/-- IEEE addition (opposite infinities give NaN, NaN propagates). -/
def fadd : RFloat → RFloat → RFloat
  | .nan, _ => .nan
  | _, .nan => .nan
  | .pinf, .ninf => .nan
  | .ninf, .pinf => .nan
  | .pinf, _ => .pinf
  | .ninf, _ => .ninf
  | .fin _, .pinf => .pinf
  | .fin _, .ninf => .ninf
  | .fin a, .fin b => .fin (a + b)

/-- IEEE subtraction (an infinity minus the same infinity gives NaN,
NaN propagates). -/
def fsub : RFloat → RFloat → RFloat
  | .nan, _ => .nan
  | _, .nan => .nan
  | .pinf, .pinf => .nan
  | .ninf, .ninf => .nan
  | .pinf, _ => .pinf
  | .ninf, _ => .ninf
  | .fin _, .pinf => .ninf
  | .fin _, .ninf => .pinf
  | .fin a, .fin b => .fin (a - b)

/-- IEEE multiplication (zero times an infinity gives NaN, NaN
propagates). -/
def fmul : RFloat → RFloat → RFloat
  | .nan, _ => .nan
  | _, .nan => .nan
  | .pinf, .pinf => .pinf
  | .pinf, .ninf => .ninf
  | .ninf, .pinf => .ninf
  | .ninf, .ninf => .pinf
  | .pinf, .fin q => if 0 < q then .pinf else if q < 0 then .ninf else .nan
  | .fin q, .pinf => if 0 < q then .pinf else if q < 0 then .ninf else .nan
  | .ninf, .fin q => if 0 < q then .ninf else if q < 0 then .pinf else .nan
  | .fin q, .ninf => if 0 < q then .ninf else if q < 0 then .pinf else .nan
  | .fin a, .fin b => .fin (a * b)

/-- `np.sign` on the IEEE domain: NaN maps to NaN, the infinities to
their sign. -/
def fsign : RFloat → RFloat
  | .nan => .nan
  | .pinf => .fin 1
  | .ninf => .fin (-1)
  | .fin q => .fin (if 0 < q then 1 else if q < 0 then -1 else 0)

/-- `np.maximum`, which propagates NaN: if either argument is NaN the
result is NaN, otherwise the larger argument. -/
def fmaximum (a b : RFloat) : RFloat :=
  if a.isNan then .nan else if b.isNan then .nan else if flt a b then b else a

/-- `np.amax` over a list: a left fold of `np.maximum`.  numpy raises
on an empty axis; the default returned here for the empty list is never
exercised, the theorems assuming a nonempty slice. -/
def fmaxList : List RFloat → RFloat
  | [] => .nan
  | v :: rest => rest.foldl fmaximum v

/-- numpy argmax over the IEEE domain: the running best is replaced
exactly when `not (v <= best)`, so NaN — all of whose comparisons are
false — replaces any best value; the scan then stops, the first NaN
being treated as maximal (this is the negated-comparison NaN handling
of the numpy argmax loop). -/
def fargmaxAux : List RFloat → ℕ → ℕ × RFloat → ℕ × RFloat
  | [], _, best => best
  | v :: rest, i, best =>
      if best.2.isNan then best
      else if !(fle v best.2) then fargmaxAux rest (i + 1) (i, v)
      else fargmaxAux rest (i + 1) best

/-- numpy argmax of a list over the IEEE domain. -/
def fargmaxList : List RFloat → ℕ
  | [] => 0
  | v :: rest => (fargmaxAux rest 1 (0, v)).1

/-- A heatmap tensor over the IEEE value domain. -/
structure HeatmapF where
  B : ℕ
  K : ℕ
  H : ℕ
  W : ℕ
  val : ℕ → ℕ → ℕ → ℕ → RFloat

/-- Row `(b, k)` of the reshaped heatmap over the IEEE domain. -/
def heatmap_vectorF (hm : HeatmapF) (b k : ℕ) : List RFloat :=
  (List.range (hm.H * hm.W)).map (fun i => hm.val b k (i / hm.W) (i % hm.W))

/-- `scores = F.max(heatmap_vector, axis=2)` over the IEEE domain. -/
def scoresF (hm : HeatmapF) (b k : ℕ) : RFloat :=
  fmaxList (heatmap_vectorF hm b k)

/-- `scores_mask = (scores.array > 0.0)` over the IEEE domain: the
comparison is IEEE greater-than, so a NaN score gives 0 and a positive
infinite score gives 1. -/
def scores_maskF (hm : HeatmapF) (b k : ℕ) : ℕ :=
  if flt (.fin 0) (scoresF hm b k) then 1 else 0

/-- `keys_x` over the IEEE domain. -/
def keys_xF (outW : ℕ) (hm : HeatmapF) (b k : ℕ) : ℕ :=
  (fargmaxList (heatmap_vectorF hm b k) % outW) * scores_maskF hm b k

/-- `keys_y` over the IEEE domain. -/
def keys_yF (outW : ℕ) (hm : HeatmapF) (b k : ℕ) : ℕ :=
  (fargmaxList (heatmap_vectorF hm b k) / outW) * scores_maskF hm b k

/-- The output array over the IEEE domain. -/
abbrev OutArrF := ℕ → ℕ → RFloat × RFloat × RFloat

/-- The keypoint array before the refinement loop, over the IEEE
domain. -/
def initKeypointsF (outW : ℕ) (hm : HeatmapF) : OutArrF :=
  fun b k => (.fin (keys_xF outW hm b k : ℚ), .fin (keys_yF outW hm b k : ℚ),
    scoresF hm b k)

/-- The refinement loop body over the IEEE domain: the same guard, with
the neighbor difference, its sign and the quarter-pixel update computed
by the IEEE operations — nothing on this path filters or replaces
non-finite values. -/
def refineCellF (outH outW : ℕ) (hm : HeatmapF) (b k : ℕ)
    (cell : RFloat × RFloat × RFloat) : RFloat × RFloat × RFloat :=
  let px := keys_xF outW hm b k
  let py := keys_yF outW hm b k
  if 1 < px ∧ px < outW - 1 ∧ 1 < py ∧ py < outH - 1 then
    (fadd cell.1 (fmul (fsign (fsub (hm.val b k py (px + 1))
        (hm.val b k py (px - 1)))) (.fin (1 / 4))),
     fadd cell.2.1 (fmul (fsign (fsub (hm.val b k (py + 1) px)
        (hm.val b k (py - 1) px))) (.fin (1 / 4))),
     cell.2.2)
  else cell

/-- One step of the refinement loop over the IEEE domain. -/
def refineStepF (outH outW : ℕ) (st : HeatmapF × OutArrF) (p : ℕ × ℕ) :
    HeatmapF × OutArrF :=
  (st.1, fun b k =>
    if b = p.1 ∧ k = p.2 then refineCellF outH outW st.1 p.1 p.2 (st.2 p.1 p.2)
    else st.2 b k)

/-- The decode over the IEEE domain: a total function — no input value,
finite or not, is treated as an error. -/
def decodeSF (outH outW : ℕ) (hm : HeatmapF) : HeatmapF × OutArrF :=
  List.foldl (refineStepF outH outW) (hm, initKeypointsF outW hm)
    (pairsBK hm.B hm.K)

/-- A 5 by 5 single-slice IEEE heatmap with peak plus-infinity at
(2, 2), minus-infinity left and right neighbors and finite vertical
neighbors 1 and 3. -/
def exInf : HeatmapF :=
  ⟨1, 1, 5, 5, fun _ _ r c =>
    if r = 2 ∧ c = 2 then .pinf
    else if r = 2 ∧ c = 1 then .ninf
    else if r = 2 ∧ c = 3 then .ninf
    else if r = 1 ∧ c = 2 then .fin 1
    else if r = 3 ∧ c = 2 then .fin 3
    else .fin 0⟩

/-- A 2 by 2 single-slice IEEE heatmap with a NaN entry. -/
def exNaN : HeatmapF :=
  ⟨1, 1, 2, 2, fun _ _ r c => if r = 0 ∧ c = 0 then .nan else .fin 0⟩

/-! ### Correctness of the first-occurrence argmax -/

lemma argmaxAux_snd (l : List ℚ) :
    ∀ (i bi : ℕ) (bv : ℚ), (argmaxAux l i (bi, bv)).2 = l.foldl max bv := by
  induction l with
  | nil => intro i bi bv; rfl
  | cons v rest ih =>
    intro i bi bv
    simp only [argmaxAux, List.foldl_cons]
    by_cases hcmp : bv < v
    · rw [if_pos hcmp, ih, max_eq_right hcmp.le]
    · rw [if_neg hcmp, ih, max_eq_left (not_lt.mp hcmp)]

lemma argmaxAux_spec (L : List ℚ) (l : List ℚ) :
    ∀ (i bi : ℕ) (bv : ℚ),
      i + l.length = L.length →
      (∀ j, j < l.length → L.getD (i + j) 0 = l.getD j 0) →
      bi < i →
      L.getD bi 0 = bv →
      (∀ j, j < bi → L.getD j 0 < bv) →
      (∀ j, bi ≤ j → j < i → L.getD j 0 ≤ bv) →
      (argmaxAux l i (bi, bv)).1 < L.length ∧
      L.getD (argmaxAux l i (bi, bv)).1 0 = (argmaxAux l i (bi, bv)).2 ∧
      (∀ j, j < (argmaxAux l i (bi, bv)).1 → L.getD j 0 < (argmaxAux l i (bi, bv)).2) ∧
      (∀ j, j < L.length → L.getD j 0 ≤ (argmaxAux l i (bi, bv)).2) := by
  induction l with
  | nil =>
    intro i bi bv hlen _ hbi hval hlt hle
    simp only [List.length_nil, Nat.add_zero] at hlen
    refine ⟨?_, hval, hlt, ?_⟩
    · show bi < L.length
      omega
    · intro j hj
      rcases lt_or_ge j bi with h | h
      · exact (hlt j h).le
      · exact hle j h (by omega)
  | cons v rest ih =>
    intro i bi bv hlen hsuf hbi hval hlt hle
    have hv : L.getD i 0 = v := by simpa using hsuf 0 (by simp)
    simp only [argmaxAux]
    by_cases hcmp : bv < v
    · rw [if_pos hcmp]
      apply ih (i + 1) i v
      · simp at hlen ⊢; omega
      · intro j hj
        have h := hsuf (j + 1) (by simp; omega)
        rw [show i + (j + 1) = i + 1 + j by omega] at h
        simpa using h
      · omega
      · exact hv
      · intro j hj
        rcases lt_or_ge j bi with h | h
        · exact (hlt j h).trans hcmp
        · exact lt_of_le_of_lt (hle j h hj) hcmp
      · intro j h1 h2
        have hji : j = i := by omega
        subst hji
        exact le_of_eq hv
    · rw [if_neg hcmp]
      apply ih (i + 1) bi bv
      · simp at hlen ⊢; omega
      · intro j hj
        have h := hsuf (j + 1) (by simp; omega)
        rw [show i + (j + 1) = i + 1 + j by omega] at h
        simpa using h
      · omega
      · exact hval
      · exact hlt
      · intro j h1 h2
        rcases lt_or_ge j i with h | h
        · exact hle j h1 h
        · have hji : j = i := by omega
          subst hji
          rw [hv]
          exact not_lt.mp hcmp

lemma argmaxList_spec (v : ℚ) (rest : List ℚ) :
    argmaxList (v :: rest) < (v :: rest).length ∧
    (v :: rest).getD (argmaxList (v :: rest)) 0 = maxList (v :: rest) ∧
    (∀ j, j < argmaxList (v :: rest) → (v :: rest).getD j 0 < maxList (v :: rest)) ∧
    (∀ j, j < (v :: rest).length → (v :: rest).getD j 0 ≤ maxList (v :: rest)) := by
  have hsnd : (argmaxAux rest 1 (0, v)).2 = maxList (v :: rest) := by
    rw [argmaxAux_snd]; rfl
  have h := argmaxAux_spec (v :: rest) rest 1 0 v
    (by simp [Nat.add_comm]) (fun j _ => by rw [Nat.add_comm]; simp)
    (by omega) (by simp) (fun j hj => absurd hj (by omega))
    (fun j h1 h2 => by
      have hj0 : j = 0 := by omega
      subst hj0; simp)
  rw [show argmaxList (v :: rest) = (argmaxAux rest 1 (0, v)).1 from rfl, ← hsnd]
  exact h

lemma argmaxList_lt_length (l : List ℚ) (h : l ≠ []) : argmaxList l < l.length := by
  cases l with
  | nil => exact absurd rfl h
  | cons v rest => exact (argmaxList_spec v rest).1

lemma getD_argmaxList (l : List ℚ) (h : l ≠ []) :
    l.getD (argmaxList l) 0 = maxList l := by
  cases l with
  | nil => exact absurd rfl h
  | cons v rest => exact (argmaxList_spec v rest).2.1

lemma getD_lt_of_lt_argmaxList (l : List ℚ) (j : ℕ) (hj : j < argmaxList l) :
    l.getD j 0 < maxList l := by
  cases l with
  | nil => simp [argmaxList] at hj
  | cons v rest => exact (argmaxList_spec v rest).2.2.1 j hj

lemma getD_le_maxList (l : List ℚ) (j : ℕ) (hj : j < l.length) :
    l.getD j 0 ≤ maxList l := by
  cases l with
  | nil => simp at hj
  | cons v rest => exact (argmaxList_spec v rest).2.2.2 j hj

/-! ### The flattened slice -/

lemma heatmap_vector_length (hm : Heatmap) (b k : ℕ) :
    (heatmap_vector hm b k).length = hm.H * hm.W := by
  simp [heatmap_vector]

lemma heatmap_vector_getD (hm : Heatmap) (b k i : ℕ) (h : i < hm.H * hm.W) :
    (heatmap_vector hm b k).getD i 0 = hm.val b k (i / hm.W) (i % hm.W) := by
  rw [heatmap_vector, List.getD_eq_getElem _ _ (by simpa using h)]
  simp

lemma heatmap_vector_ne_nil (hm : Heatmap) (b k : ℕ) (h : 0 < hm.H * hm.W) :
    heatmap_vector hm b k ≠ [] := by
  intro he
  have hl := heatmap_vector_length hm b k
  rw [he] at hl
  simp only [List.length_nil] at hl
  omega

/-! ### The refinement loop touches each cell exactly once and never
writes the heatmap -/

lemma foldl_refine_fst (outH outW : ℕ) (l : List (ℕ × ℕ)) :
    ∀ st : Heatmap × OutArr, (List.foldl (refineStepS outH outW) st l).1 = st.1 := by
  induction l with
  | nil => intro st; rfl
  | cons p l ih =>
    intro st
    rw [List.foldl_cons, ih]
    rfl

lemma foldl_refine_not_mem (outH outW : ℕ) (l : List (ℕ × ℕ)) :
    ∀ (st : Heatmap × OutArr) (b k : ℕ), (b, k) ∉ l →
      (List.foldl (refineStepS outH outW) st l).2 b k = st.2 b k := by
  induction l with
  | nil => intro st b k _; rfl
  | cons p l ih =>
    intro st b k hmem
    rw [List.foldl_cons, ih _ b k (fun h => hmem (List.mem_cons_of_mem _ h))]
    have hne : ¬ (b = p.1 ∧ k = p.2) := by
      rintro ⟨rfl, rfl⟩
      exact hmem (by simp)
    simp [refineStepS, hne]

lemma foldl_refine_count (outH outW : ℕ) (l : List (ℕ × ℕ)) :
    ∀ (st : Heatmap × OutArr) (b k : ℕ), l.count (b, k) = 1 →
      (List.foldl (refineStepS outH outW) st l).2 b k
        = refineCell outH outW st.1 b k (st.2 b k) := by
  induction l with
  | nil => intro st b k h; simp at h
  | cons p l ih =>
    intro st b k h
    rw [List.count_cons] at h
    by_cases hp : p = (b, k)
    · subst hp
      have hcnt : l.count (b, k) = 0 := by simpa using h
      rw [List.foldl_cons,
        foldl_refine_not_mem _ _ _ _ b k (List.count_eq_zero.mp hcnt)]
      simp [refineStepS]
    · have hcnt : l.count (b, k) = 1 := by simpa [hp] using h
      rw [List.foldl_cons, ih _ b k hcnt]
      have hne : ¬ (b = p.1 ∧ k = p.2) := by
        rintro ⟨rfl, rfl⟩
        exact hp rfl
      simp [refineStepS, hne]

lemma count_row_of_ne (K b b' k : ℕ) (hb : b' ≠ b) :
    ((List.range K).map (fun j => (b', j))).count (b, k) = 0 := by
  rw [List.count_eq_zero]
  simp only [List.mem_map, List.mem_range, Prod.mk.injEq, not_exists]
  intro j
  rintro ⟨-, rfl, -⟩
  exact hb rfl

lemma count_row_of_lt (K b : ℕ) :
    ∀ k, k < K → ((List.range K).map (fun j => (b, j))).count (b, k) = 1 := by
  induction K with
  | zero => omega
  | succ K ih =>
    intro k hk
    rw [List.range_succ, List.map_append, List.count_append]
    rcases Nat.lt_or_ge k K with h | h
    · rw [ih k h]
      have hne : ((b, k) : ℕ × ℕ) ≠ (b, K) := by
        simp only [ne_eq, Prod.mk.injEq, not_and]
        intro _
        omega
      simp [List.count_cons, hne]
    · have hk2 : K = k := by omega
      subst hk2
      have h0 : ((List.range K).map (fun j => (b, j))).count (b, K) = 0 := by
        rw [List.count_eq_zero]
        simp only [List.mem_map, List.mem_range, Prod.mk.injEq, not_exists]
        intro j
        rintro ⟨hj, -, rfl⟩
        omega
      rw [h0]
      simp [List.count_cons]

lemma mem_pairsBK (B K : ℕ) (p : ℕ × ℕ) :
    p ∈ pairsBK B K ↔ p.1 < B ∧ p.2 < K := by
  constructor
  · intro h
    simp only [pairsBK, List.mem_flatMap, List.mem_map, List.mem_range] at h
    obtain ⟨a, ha, j, hj, rfl⟩ := h
    exact ⟨ha, hj⟩
  · rintro ⟨h1, h2⟩
    simp only [pairsBK, List.mem_flatMap, List.mem_map, List.mem_range]
    exact ⟨p.1, h1, p.2, h2, rfl⟩

lemma count_pairsBK (B K : ℕ) :
    ∀ b k, b < B → k < K → (pairsBK B K).count (b, k) = 1 := by
  induction B with
  | zero => omega
  | succ B ih =>
    intro b k hb hk
    have hsplit : pairsBK (B + 1) K
        = pairsBK B K ++ (List.range K).map (fun j => (B, j)) := by
      rw [pairsBK, List.range_succ, List.flatMap_append, List.flatMap_cons,
        List.flatMap_nil, List.append_nil]
      rfl
    rw [hsplit, List.count_append]
    rcases Nat.lt_or_ge b B with h | h
    · rw [ih b k h hk, count_row_of_ne _ _ _ _ (by omega)]
    · have hb2 : B = b := by omega
      subst hb2
      have h0 : (pairsBK B K).count (B, k) = 0 := by
        rw [List.count_eq_zero]
        intro hmem
        exact absurd ((mem_pairsBK B K _).mp hmem).1 (by omega)
      rw [h0, count_row_of_lt _ _ _ hk]


/-- Each output cell of the decode is the initial keypoint triple of that
cell passed through the refinement step, and the loop leaves the heatmap
component of the state untouched. -/
lemma decodeS_cell (outH outW : ℕ) (hm : Heatmap) (b k : ℕ)
    (hb : b < hm.B) (hk : k < hm.K) :
    (decodeS outH outW hm).2 b k
      = refineCell outH outW hm b k (initKeypoints outW hm b k) := by
  rw [decodeS, foldl_refine_count outH outW _ _ b k (count_pairsBK _ _ _ _ hb hk)]

lemma decodeS_fst (outH outW : ℕ) (hm : Heatmap) :
    (decodeS outH outW hm).1 = hm :=
  foldl_refine_fst outH outW _ _


/-! ### NaN propagation and the refinement loop over the IEEE domain -/

lemma foldl_fmaximum_nan (l : List RFloat) :
    l.foldl fmaximum RFloat.nan = RFloat.nan := by
  induction l with
  | nil => rfl
  | cons v l ih =>
    rw [List.foldl_cons]
    have h : fmaximum RFloat.nan v = RFloat.nan := rfl
    rw [h]
    exact ih

lemma foldl_fmaximum_mem_nan (l : List RFloat) :
    ∀ a : RFloat, RFloat.nan ∈ l → l.foldl fmaximum a = RFloat.nan := by
  induction l with
  | nil => intro a h; simp at h
  | cons v l ih =>
    intro a h
    rw [List.foldl_cons]
    rcases List.mem_cons.mp h with h | h
    · rw [← h]
      have hnan : fmaximum a RFloat.nan = RFloat.nan := by
        rw [fmaximum]
        split_ifs with h1 h2 h3
        · rfl
        · rfl
        · rfl
        · exact absurd rfl h2
      rw [hnan]
      exact foldl_fmaximum_nan l
    · exact ih _ h

lemma foldlF_refine_not_mem (outH outW : ℕ) (l : List (ℕ × ℕ)) :
    ∀ (st : HeatmapF × OutArrF) (b k : ℕ), (b, k) ∉ l →
      (List.foldl (refineStepF outH outW) st l).2 b k = st.2 b k := by
  induction l with
  | nil => intro st b k _; rfl
  | cons p l ih =>
    intro st b k hmem
    rw [List.foldl_cons, ih _ b k (fun h => hmem (List.mem_cons_of_mem _ h))]
    have hne : ¬ (b = p.1 ∧ k = p.2) := by
      rintro ⟨rfl, rfl⟩
      exact hmem (by simp)
    simp [refineStepF, hne]

lemma foldlF_refine_count (outH outW : ℕ) (l : List (ℕ × ℕ)) :
    ∀ (st : HeatmapF × OutArrF) (b k : ℕ), l.count (b, k) = 1 →
      (List.foldl (refineStepF outH outW) st l).2 b k
        = refineCellF outH outW st.1 b k (st.2 b k) := by
  induction l with
  | nil => intro st b k h; simp at h
  | cons p l ih =>
    intro st b k h
    rw [List.count_cons] at h
    by_cases hp : p = (b, k)
    · subst hp
      have hcnt : l.count (b, k) = 0 := by simpa using h
      rw [List.foldl_cons,
        foldlF_refine_not_mem _ _ _ _ b k (List.count_eq_zero.mp hcnt)]
      simp [refineStepF]
    · have hcnt : l.count (b, k) = 1 := by simpa [hp] using h
      rw [List.foldl_cons, ih _ b k hcnt]
      have hne : ¬ (b = p.1 ∧ k = p.2) := by
        rintro ⟨rfl, rfl⟩
        exact hp rfl
      simp [refineStepF, hne]

lemma decodeSF_cell (outH outW : ℕ) (hm : HeatmapF) (b k : ℕ)
    (hb : b < hm.B) (hk : k < hm.K) :
    (decodeSF outH outW hm).2 b k
      = refineCellF outH outW hm b k (initKeypointsF outW hm b k) := by
  rw [decodeSF, foldlF_refine_count outH outW _ _ b k (count_pairsBK _ _ _ _ hb hk)]

/-! ### Claim theorems -/

/-- Claim C1: for a slice whose peak value is positive and whose peak
position is strictly interior (1 < col < W-1 and 1 < row < H-1), the
decoder returns x = col + 0.25 * sign(hm[row, col+1] - hm[row, col-1])
and y = row + 0.25 * sign(hm[row+1, col] - hm[row-1, col]); when the
peak is positive but the interior condition fails, the returned
coordinates are exactly (col, row) with no offset. -/
theorem C1_subpixel_refinement (hm : Heatmap) (b k idx col row : ℕ)
    (hb : b < hm.B) (hk : k < hm.K)
    (hidx : idx = argmaxList (heatmap_vector hm b k))
    (hcol : col = idx % hm.W) (hrow : row = idx / hm.W)
    (hs : 0 < scores hm b k) :
    ((1 < col ∧ col < hm.W - 1 ∧ 1 < row ∧ row < hm.H - 1) →
      (decodeS hm.H hm.W hm).2 b k
        = ((col : ℚ) + npSign (hm.val b k row (col + 1) - hm.val b k row (col - 1)) * (1 / 4),
           (row : ℚ) + npSign (hm.val b k (row + 1) col - hm.val b k (row - 1) col) * (1 / 4),
           scores hm b k)) ∧
    (¬ (1 < col ∧ col < hm.W - 1 ∧ 1 < row ∧ row < hm.H - 1) →
      (decodeS hm.H hm.W hm).2 b k = ((col : ℚ), (row : ℚ), scores hm b k)) := by
  have hx : keys_x hm.W hm b k = col := by
    rw [keys_x, scores_mask, if_pos hs, mul_one, hcol, hidx]
  have hy : keys_y hm.W hm b k = row := by
    rw [keys_y, scores_mask, if_pos hs, mul_one, hrow, hidx]
  rw [decodeS_cell _ _ _ _ _ hb hk]
  constructor
  · intro hcond
    simp only [refineCell, initKeypoints, hx, hy]
    rw [if_pos hcond]
  · intro hcond
    simp only [refineCell, initKeypoints, hx, hy]
    rw [if_neg hcond]

/-- Claim C1 witness: on the 5 by 5 example with peak 5 at (2, 2) and
neighbors 3 (right), 1 (left), 1 (up), 1 (down), the decode returns
(2.25, 2, 5). -/
theorem C1_witness : (decodeS 5 5 exHm5).2 0 0 = (9 / 4, 2, 5) := by
  show (decodeS exHm5.H exHm5.W exHm5).2 0 0 = (9 / 4, 2, 5)
  have h := (C1_subpixel_refinement exHm5 0 0 12 2 2 (by decide) (by decide)
    (by decide) (by decide) (by decide) (by decide)).1 (by decide)
  have hsc : scores exHm5 0 0 = 5 := by decide
  rw [h, hsc]
  norm_num [exHm5, npSign]

/-- Claim C3: whenever the maximum of the (b, k) slice is non-positive,
the returned record is exactly (0, 0, score): the coordinates are zeroed
by the mask and no sub-pixel refinement is applied. -/
theorem C3_gating (hm : Heatmap) (b k : ℕ) (hb : b < hm.B) (hk : k < hm.K)
    (_hpos : 0 < hm.H * hm.W) (hs : scores hm b k ≤ 0) :
    (decodeS hm.H hm.W hm).2 b k = (0, 0, scores hm b k) := by
  have hm0 : scores_mask hm b k = 0 := by
    rw [scores_mask, if_neg (not_lt.mpr hs)]
  have hx : keys_x hm.W hm b k = 0 := by rw [keys_x, hm0, mul_zero]
  have hy : keys_y hm.W hm b k = 0 := by rw [keys_y, hm0, mul_zero]
  rw [decodeS_cell _ _ _ _ _ hb hk]
  simp only [refineCell, initKeypoints, hx, hy, Nat.cast_zero]
  norm_num

/-- Claim C3 witness: on the all-negative 2 by 2 example the decode
returns (0, 0, -1). -/
theorem C3_witness : (decodeS 2 2 exNeg).2 0 0 = (0, 0, -1) := by
  have h := C3_gating exNeg 0 0 (by decide) (by decide) (by decide) (by decide)
  exact h.trans (by decide)

/-- Claim C5: when the `return_heatmap` flag fixed at construction is
set, the call returns the heatmap tensor itself, unprocessed; the decode
is never run. -/
theorem C5_return_heatmap_mode {α : Type} (m : SimplePose α) (x : α)
    (h : m.return_heatmap = true) :
    SimplePose.call m x = Sum.inl (m.forward x) := by
  rw [SimplePose.call]
  simp [h]

/-- Claim C5 witness: a model constructed with the flag set returns its
heatmap unprocessed. -/
theorem C5_witness :
    SimplePose.call ⟨true, (16, 16), fun _ : Unit => exFlat⟩ () = Sum.inl exFlat :=
  C5_return_heatmap_mode _ _ rfl

/-- Claim C8: the refinement loop never writes the heatmap component of
its state, whatever output array it starts from, and in particular the
decode leaves the input heatmap unchanged: the updates touch only the
output array. -/
theorem C8_no_input_mutation (outH outW : ℕ) (hm : Heatmap) (initOut : OutArr) :
    (List.foldl (refineStepS outH outW) (hm, initOut) (pairsBK hm.B hm.K)).1 = hm ∧
    (decodeS outH outW hm).1 = hm :=
  ⟨foldl_refine_fst outH outW _ _, decodeS_fst outH outW hm⟩

/-- Claim C2: the peak of a slice (whose width matches the configured
output width) is located by argmax over the row-major flattening, the
first occurrence winning on ties, and the flat index is decomposed as
col = idx mod W, row = idx div W; a constant positive slice therefore
yields peak (0, 0) and, the peak lying on the boundary, the unrefined
record (0, 0, c). -/
theorem C2_argmax_decomposition (hm : Heatmap) (outW b k idx : ℕ)
    (hb : b < hm.B) (hk : k < hm.K) (_hW : outW = hm.W)
    (hne : 0 < hm.H * hm.W)
    (hidx : idx = argmaxList (heatmap_vector hm b k)) :
    (heatmap_vector hm b k).length = hm.H * hm.W ∧
    (∀ j, j < hm.H * hm.W →
      (heatmap_vector hm b k).getD j 0 = hm.val b k (j / hm.W) (j % hm.W)) ∧
    idx < hm.H * hm.W ∧
    (heatmap_vector hm b k).getD idx 0 = scores hm b k ∧
    (∀ j, j < idx → (heatmap_vector hm b k).getD j 0 < scores hm b k) ∧
    (0 < scores hm b k →
      keys_x outW hm b k = idx % outW ∧ keys_y outW hm b k = idx / outW) ∧
    (∀ c : ℚ, 0 < c → (∀ r cc, r < hm.H → cc < hm.W → hm.val b k r cc = c) →
      idx = 0 ∧ (decodeS hm.H outW hm).2 b k = (0, 0, c)) := by
  subst hidx
  have hnn : heatmap_vector hm b k ≠ [] := heatmap_vector_ne_nil hm b k hne
  have hWpos : 0 < hm.W := by
    rcases Nat.eq_zero_or_pos hm.W with h | h
    · rw [h, Nat.mul_zero] at hne
      exact absurd hne (lt_irrefl 0)
    · exact h
  have hHpos : 0 < hm.H := by
    rcases Nat.eq_zero_or_pos hm.H with h | h
    · rw [h, Nat.zero_mul] at hne
      exact absurd hne (lt_irrefl 0)
    · exact h
  have hidxlt : argmaxList (heatmap_vector hm b k) < hm.H * hm.W := by
    have h := argmaxList_lt_length _ hnn
    rwa [heatmap_vector_length] at h
  refine ⟨heatmap_vector_length hm b k,
    fun j hj => heatmap_vector_getD hm b k j hj, hidxlt,
    getD_argmaxList _ hnn,
    fun j hj => getD_lt_of_lt_argmaxList _ j hj, ?_, ?_⟩
  · intro hposv
    constructor
    · rw [keys_x, scores_mask, if_pos hposv, mul_one]
    · rw [keys_y, scores_mask, if_pos hposv, mul_one]
  · intro c hc hconst
    have hdiv : argmaxList (heatmap_vector hm b k) / hm.W < hm.H :=
      Nat.div_lt_of_lt_mul (by rwa [Nat.mul_comm] at hidxlt)
    have hmod : argmaxList (heatmap_vector hm b k) % hm.W < hm.W :=
      Nat.mod_lt _ hWpos
    have hsc : scores hm b k = c := by
      rw [scores, ← getD_argmaxList _ hnn, heatmap_vector_getD _ _ _ _ hidxlt]
      exact hconst _ _ hdiv hmod
    have hidx0 : argmaxList (heatmap_vector hm b k) = 0 := by
      by_contra h0
      have hlt : (heatmap_vector hm b k).getD 0 0 < scores hm b k :=
        getD_lt_of_lt_argmaxList _ 0 (Nat.pos_of_ne_zero h0)
      rw [heatmap_vector_getD _ _ _ _ hne, Nat.zero_div, Nat.zero_mod,
        hconst 0 0 hHpos hWpos, hsc] at hlt
      exact absurd hlt (lt_irrefl c)
    refine ⟨hidx0, ?_⟩
    have hx : keys_x outW hm b k = 0 := by
      rw [keys_x, hidx0, Nat.zero_mod, Nat.zero_mul]
    have hy : keys_y outW hm b k = 0 := by
      rw [keys_y, hidx0, Nat.zero_div, Nat.zero_mul]
    rw [decodeS_cell _ _ _ _ _ hb hk]
    simp only [refineCell, initKeypoints, hx, hy, Nat.cast_zero]
    norm_num [hsc]

/-- Claim C2 witness: the flat positive 4 by 4 slice has its argmax at
flat index 0 and decodes to the unrefined record (0, 0, 1). -/
theorem C2_witness : (decodeS 4 4 exFlat).2 0 0 = (0, 0, 1) := by
  show (decodeS exFlat.H 4 exFlat).2 0 0 = (0, 0, 1)
  have h := C2_argmax_decomposition exFlat 4 0 0
    (argmaxList (heatmap_vector exFlat 0 0)) (by decide) (by decide)
    (by decide) (by decide) rfl
  exact (h.2.2.2.2.2.2 1 (by norm_num) (fun r cc _ _ => rfl)).2

/-- Claim C6: the decode of a (B, K, H, W) heatmap is a batch-major,
keypoint-index-major nested result of shape (B, K, 3) whose slot (b, k)
is the triple built from keys_x, keys_y and the score, in that component
order; the third component is always the raw peak score. -/
theorem C6_shape (hm : Heatmap) (b k : ℕ) (hb : b < hm.B) (hk : k < hm.K)
    (_hne : 0 < hm.H * hm.W) :
    (decodeList hm.H hm.W hm).length = hm.B ∧
    ((decodeList hm.H hm.W hm).getD b []).length = hm.K ∧
    ((decodeList hm.H hm.W hm).getD b []).getD k (0, 0, 0)
      = (decodeS hm.H hm.W hm).2 b k ∧
    (decodeS hm.H hm.W hm).2 b k
      = refineCell hm.H hm.W hm b k
          ((keys_x hm.W hm b k : ℚ), (keys_y hm.W hm b k : ℚ), scores hm b k) ∧
    ((decodeS hm.H hm.W hm).2 b k).2.2 = scores hm b k := by
  have hrow : (decodeList hm.H hm.W hm).getD b []
      = (List.range hm.K).map (fun k => (decodeS hm.H hm.W hm).2 b k) := by
    rw [decodeList, List.getD_eq_getElem _ _ (by simpa using hb)]
    simp
  refine ⟨by simp [decodeList], ?_, ?_, ?_, ?_⟩
  · rw [hrow]
    simp
  · rw [hrow, List.getD_eq_getElem _ _ (by simpa using hk)]
    simp
  · rw [decodeS_cell _ _ _ _ _ hb hk, initKeypoints]
  · rw [decodeS_cell _ _ _ _ _ hb hk]
    simp only [refineCell, initKeypoints]
    split <;> rfl

/-- Claim C6 witness: the decode of the 5 by 5 example has one batch
row of one keypoint record whose third slot is the peak score. -/
theorem C6_witness :
    (decodeList 5 5 exHm5).length = 1 ∧
    ((decodeList 5 5 exHm5).getD 0 []).length = 1 ∧
    ((decodeS 5 5 exHm5).2 0 0).2.2 = scores exHm5 0 0 := by
  show (decodeList exHm5.H exHm5.W exHm5).length = 1 ∧
    ((decodeList exHm5.H exHm5.W exHm5).getD 0 []).length = 1 ∧
    ((decodeS exHm5.H exHm5.W exHm5).2 0 0).2.2 = scores exHm5 0 0
  have h := C6_shape exHm5 0 0 (by decide) (by decide) (by decide)
  exact ⟨h.1, h.2.1, h.2.2.2.2⟩

/-- Claim C10: every returned coordinate lies inside the heatmap grid:
0 <= x <= W-1 and 0 <= y <= H-1.  Gated records sit at (0, 0), unrefined
peaks are grid points, and the quarter-pixel offset is applied only at
strictly interior peaks, so it cannot push a coordinate outside. -/
theorem C10_output_in_grid (hm : Heatmap) (b k : ℕ) (hb : b < hm.B)
    (hk : k < hm.K) (hH : 0 < hm.H) (hW : 0 < hm.W) :
    0 ≤ ((decodeS hm.H hm.W hm).2 b k).1 ∧
    ((decodeS hm.H hm.W hm).2 b k).1 ≤ (hm.W : ℚ) - 1 ∧
    0 ≤ ((decodeS hm.H hm.W hm).2 b k).2.1 ∧
    ((decodeS hm.H hm.W hm).2 b k).2.1 ≤ (hm.H : ℚ) - 1 := by
  have hxyle : keys_x hm.W hm b k ≤ hm.W - 1 ∧ keys_y hm.W hm b k ≤ hm.H - 1 := by
    rw [keys_x, keys_y, scores_mask]
    by_cases hs : 0 < scores hm b k
    · rw [if_pos hs, mul_one, mul_one]
      have hnn : heatmap_vector hm b k ≠ [] :=
        heatmap_vector_ne_nil hm b k (Nat.mul_pos hH hW)
      have hlt : argmaxList (heatmap_vector hm b k) < hm.H * hm.W := by
        have h := argmaxList_lt_length _ hnn
        rwa [heatmap_vector_length] at h
      constructor
      · have h := Nat.mod_lt (argmaxList (heatmap_vector hm b k)) hW
        omega
      · have h : argmaxList (heatmap_vector hm b k) / hm.W < hm.H :=
          Nat.div_lt_of_lt_mul (by rwa [Nat.mul_comm] at hlt)
        omega
    · rw [if_neg hs, Nat.mul_zero, Nat.mul_zero]
      omega
  obtain ⟨hxle, hyle⟩ := hxyle
  rw [decodeS_cell _ _ _ _ _ hb hk]
  simp only [refineCell, initKeypoints]
  split_ifs with hc
  · obtain ⟨h1, h2, h3, h4⟩ := hc
    have hx2 : (2 : ℚ) ≤ (keys_x hm.W hm b k : ℚ) := by
      have : (2 : ℕ) ≤ keys_x hm.W hm b k := by omega
      exact_mod_cast this
    have hxW : (keys_x hm.W hm b k : ℚ) ≤ (hm.W : ℚ) - 2 := by
      have : keys_x hm.W hm b k + 2 ≤ hm.W := by omega
      have hcast : ((keys_x hm.W hm b k + 2 : ℕ) : ℚ) ≤ ((hm.W : ℕ) : ℚ) :=
        Nat.cast_le.mpr this
      push_cast at hcast
      linarith
    have hy2 : (2 : ℚ) ≤ (keys_y hm.W hm b k : ℚ) := by
      have : (2 : ℕ) ≤ keys_y hm.W hm b k := by omega
      exact_mod_cast this
    have hyH : (keys_y hm.W hm b k : ℚ) ≤ (hm.H : ℚ) - 2 := by
      have : keys_y hm.W hm b k + 2 ≤ hm.H := by omega
      have hcast : ((keys_y hm.W hm b k + 2 : ℕ) : ℚ) ≤ ((hm.H : ℕ) : ℚ) :=
        Nat.cast_le.mpr this
      push_cast at hcast
      linarith
    have hs1 : -(1 / 4 : ℚ)
          ≤ npSign (hm.val b k (keys_y hm.W hm b k) (keys_x hm.W hm b k + 1)
              - hm.val b k (keys_y hm.W hm b k) (keys_x hm.W hm b k - 1)) * (1 / 4)
        ∧ npSign (hm.val b k (keys_y hm.W hm b k) (keys_x hm.W hm b k + 1)
              - hm.val b k (keys_y hm.W hm b k) (keys_x hm.W hm b k - 1)) * (1 / 4)
          ≤ 1 / 4 := by
      rw [npSign]
      split_ifs <;> norm_num
    have hs2 : -(1 / 4 : ℚ)
          ≤ npSign (hm.val b k (keys_y hm.W hm b k + 1) (keys_x hm.W hm b k)
              - hm.val b k (keys_y hm.W hm b k - 1) (keys_x hm.W hm b k)) * (1 / 4)
        ∧ npSign (hm.val b k (keys_y hm.W hm b k + 1) (keys_x hm.W hm b k)
              - hm.val b k (keys_y hm.W hm b k - 1) (keys_x hm.W hm b k)) * (1 / 4)
          ≤ 1 / 4 := by
      rw [npSign]
      split_ifs <;> norm_num
    refine ⟨by linarith [hs1.1], by linarith [hs1.2], by linarith [hs2.1],
      by linarith [hs2.2]⟩
  · have hxq : (keys_x hm.W hm b k : ℚ) ≤ (hm.W : ℚ) - 1 := by
      have : keys_x hm.W hm b k + 1 ≤ hm.W := by omega
      have hcast : ((keys_x hm.W hm b k + 1 : ℕ) : ℚ) ≤ ((hm.W : ℕ) : ℚ) :=
        Nat.cast_le.mpr this
      push_cast at hcast
      linarith
    have hyq : (keys_y hm.W hm b k : ℚ) ≤ (hm.H : ℚ) - 1 := by
      have : keys_y hm.W hm b k + 1 ≤ hm.H := by omega
      have hcast : ((keys_y hm.W hm b k + 1 : ℕ) : ℚ) ≤ ((hm.H : ℕ) : ℚ) :=
        Nat.cast_le.mpr this
      push_cast at hcast
      linarith
    exact ⟨Nat.cast_nonneg _, hxq, Nat.cast_nonneg _, hyq⟩

/-- Claim C10 witness: the coordinates decoded from the 5 by 5 example
lie inside its 5 by 5 grid. -/
theorem C10_witness :
    0 ≤ ((decodeS exHm5.H exHm5.W exHm5).2 0 0).1 ∧
    ((decodeS exHm5.H exHm5.W exHm5).2 0 0).1 ≤ (exHm5.W : ℚ) - 1 ∧
    0 ≤ ((decodeS exHm5.H exHm5.W exHm5).2 0 0).2.1 ∧
    ((decodeS exHm5.H exHm5.W exHm5).2 0 0).2.1 ≤ (exHm5.H : ℚ) - 1 :=
  C10_output_in_grid exHm5 0 0 (by decide) (by decide) (by decide) (by decide)

/-- Claim C7: the decode is deterministic, with no randomness and no
iteration-order ambiguity: two heatmap tensors of the same shape whose
values agree at every in-range index decode to identical keypoint batch
results. -/
theorem C7_determinism (B K H W : ℕ) (v1 v2 : ℕ → ℕ → ℕ → ℕ → ℚ)
    (hval : ∀ b, b < B → ∀ k, k < K → ∀ r, r < H → ∀ c, c < W →
      v1 b k r c = v2 b k r c) :
    decodeList H W ⟨B, K, H, W, v1⟩ = decodeList H W ⟨B, K, H, W, v2⟩ := by
  have hvec : ∀ b k, b < B → k < K →
      heatmap_vector ⟨B, K, H, W, v1⟩ b k = heatmap_vector ⟨B, K, H, W, v2⟩ b k := by
    intro b k hb hk
    show (List.range (H * W)).map (fun i => v1 b k (i / W) (i % W))
      = (List.range (H * W)).map (fun i => v2 b k (i / W) (i % W))
    apply List.map_congr_left
    intro i hi
    rw [List.mem_range] at hi
    rcases Nat.eq_zero_or_pos W with hw | hw
    · subst hw
      rw [Nat.mul_zero] at hi
      omega
    · exact hval b hb k hk _ (Nat.div_lt_of_lt_mul (by rwa [Nat.mul_comm] at hi))
        _ (Nat.mod_lt _ hw)
  have hcell : ∀ b k, b < B → k < K →
      (decodeS H W ⟨B, K, H, W, v1⟩).2 b k = (decodeS H W ⟨B, K, H, W, v2⟩).2 b k := by
    intro b k hb hk
    have hv := hvec b k hb hk
    have hsc : scores ⟨B, K, H, W, v1⟩ b k = scores ⟨B, K, H, W, v2⟩ b k := by
      rw [scores, scores, hv]
    have hmask : scores_mask ⟨B, K, H, W, v1⟩ b k
        = scores_mask ⟨B, K, H, W, v2⟩ b k := by
      rw [scores_mask, scores_mask, hsc]
    have hkx : keys_x W ⟨B, K, H, W, v1⟩ b k = keys_x W ⟨B, K, H, W, v2⟩ b k := by
      rw [keys_x, keys_x, hv, hmask]
    have hky : keys_y W ⟨B, K, H, W, v1⟩ b k = keys_y W ⟨B, K, H, W, v2⟩ b k := by
      rw [keys_y, keys_y, hv, hmask]
    rw [decodeS_cell _ _ _ _ _ hb hk, decodeS_cell _ _ _ _ _ hb hk]
    rw [initKeypoints, initKeypoints]
    simp only [refineCell, hkx, hky, hsc]
    split_ifs with hc
    · obtain ⟨h1, h2, h3, h4⟩ := hc
      have e1 := hval b hb k hk (keys_y W ⟨B, K, H, W, v2⟩ b k) (by omega)
        (keys_x W ⟨B, K, H, W, v2⟩ b k + 1) (by omega)
      have e2 := hval b hb k hk (keys_y W ⟨B, K, H, W, v2⟩ b k) (by omega)
        (keys_x W ⟨B, K, H, W, v2⟩ b k - 1) (by omega)
      have e3 := hval b hb k hk (keys_y W ⟨B, K, H, W, v2⟩ b k + 1) (by omega)
        (keys_x W ⟨B, K, H, W, v2⟩ b k) (by omega)
      have e4 := hval b hb k hk (keys_y W ⟨B, K, H, W, v2⟩ b k - 1) (by omega)
        (keys_x W ⟨B, K, H, W, v2⟩ b k) (by omega)
      show ((keys_x W ⟨B, K, H, W, v2⟩ b k : ℚ)
          + npSign (v1 b k (keys_y W ⟨B, K, H, W, v2⟩ b k)
              (keys_x W ⟨B, K, H, W, v2⟩ b k + 1)
            - v1 b k (keys_y W ⟨B, K, H, W, v2⟩ b k)
              (keys_x W ⟨B, K, H, W, v2⟩ b k - 1)) * (1 / 4), _, _)
        = _
      rw [e1, e2, e3, e4]
    · rfl
  have e1 : decodeList H W ⟨B, K, H, W, v1⟩
      = (List.range B).map (fun b =>
          (List.range K).map (fun k => (decodeS H W ⟨B, K, H, W, v1⟩).2 b k)) := rfl
  have e2 : decodeList H W ⟨B, K, H, W, v2⟩
      = (List.range B).map (fun b =>
          (List.range K).map (fun k => (decodeS H W ⟨B, K, H, W, v2⟩).2 b k)) := rfl
  rw [e1, e2]
  apply List.map_congr_left
  intro b hb
  rw [List.mem_range] at hb
  apply List.map_congr_left
  intro k hk
  rw [List.mem_range] at hk
  exact hcell b k hb hk

/-- Claim C7 witness: two 3 by 3 tensors that agree on every in-range
index (the second one differing only at out-of-range rows) decode to the
same result. -/
theorem C7_witness :
    decodeList 3 3 ⟨1, 1, 3, 3, fun _ _ r c => if r = 0 ∧ c = 0 then 2 else 0⟩
      = decodeList 3 3 ⟨1, 1, 3, 3, fun _ _ r c =>
          if 3 ≤ r then 7 else if r = 0 ∧ c = 0 then 2 else 0⟩ :=
  C7_determinism 1 1 3 3 _ _ (by decide)

/-- Claim C4 counterexample: on a 3-dimensional tensor the decode does
not raise the posited `InvalidShapeError`; it runs the reshape, argmax
and key computation and only then fails with an index error at the
per-slice indexing inside the refinement loop. -/
theorem C4_counterexample :
    decodeGeneral 4 4 2 ex3D = Except.error DecodeErr.indexError ∧
    decodeGeneral 4 4 2 ex3D ≠ Except.error DecodeErr.invalidShape := by
  have h1 : decodeGeneral 4 4 2 ex3D = Except.error DecodeErr.indexError := by
    rfl
  refine ⟨h1, ?_⟩
  rw [h1]
  intro h
  exact absurd (Except.error.inj h) (by decide)

/-- Claim C4 amended: the decoder performs no shape validation and the
source defines no `InvalidShapeError`; a 3-dimensional tensor with a
positive batch dimension and keypoint count that passes the reshape
proceeds through the peak computation and fails with an index error
inside the refinement loop, at the first per-slice indexing of the
heatmap. -/
theorem C4_no_shape_validation (outH outW kpts : ℕ) (t : TensorN)
    (hrank : t.dims.length = 3) (hbatch : 0 < t.dims.headD 0) (hkpts : 0 < kpts)
    (hdvd : t.dims.headD 0 * kpts ∣ t.data.length) (hdata : 0 < t.data.length) :
    decodeGeneral outH outW kpts t = Except.error DecodeErr.indexError := by
  have hbk : t.dims.headD 0 * kpts ≠ 0 := Nat.mul_ne_zero (by omega) (by omega)
  rw [decodeGeneral]
  have hcond1 : ¬ (t.dims.headD 0 * kpts = 0 ∨
      ¬ (t.dims.headD 0 * kpts ∣ t.data.length)) := by
    push_neg
    exact ⟨hbk, hdvd⟩
  rw [if_neg hcond1]
  have hs : t.data.length / (t.dims.headD 0 * kpts) ≠ 0 := by
    have hle : t.dims.headD 0 * kpts ≤ t.data.length := Nat.le_of_dvd hdata hdvd
    have hp := Nat.div_pos hle (Nat.pos_of_ne_zero hbk)
    omega
  rw [if_neg hs]
  obtain ⟨B1, hB⟩ : ∃ B1, t.dims.headD 0 = B1 + 1 := ⟨t.dims.headD 0 - 1, by omega⟩
  obtain ⟨K1, hK⟩ : ∃ K1, kpts = K1 + 1 := ⟨kpts - 1, by omega⟩
  obtain ⟨rest, hrest⟩ : ∃ rest, pairsBK (t.dims.headD 0) kpts = (0, 0) :: rest := by
    rw [hB, hK]
    refine ⟨((List.range K1).map Nat.succ).map (fun k => ((0 : ℕ), k))
      ++ ((List.range B1).map Nat.succ).flatMap
        (fun b => (List.range (K1 + 1)).map (fun k => (b, k))), ?_⟩
    rw [pairsBK, List.range_succ_eq_map, List.flatMap_cons,
      List.range_succ_eq_map, List.map_cons, List.cons_append]
  rw [hrest]
  have hstep : refineGenStep outH outW kpts
      (t.data.length / (t.dims.headD 0 * kpts)) t
      (initGen outW kpts (t.data.length / (t.dims.headD 0 * kpts)) t) (0, 0)
      = Except.error DecodeErr.indexError := by
    rw [refineGenStep, if_pos (by omega : t.dims.length < 4)]
  rw [List.foldlM_cons, hstep]
  rfl

/-- Claim C4 witness: a concrete 3-dimensional tensor of shape
(2, 3, 4) with three keypoints configured fails with an index error, not
an invalid-shape error. -/
theorem C4_witness : decodeGeneral 5 5 3 ex3Db = Except.error DecodeErr.indexError :=
  C4_no_shape_validation 5 5 3 ex3Db (by decide) (by decide) (by decide)
    (by decide) (by decide)


/-- Claim C9: over the value domain extended with NaN and the
infinities, the decode is a total function — non-finite input is not
treated as an error — and non-finite values pass through unsanitized:
the score slot always receives the raw IEEE maximum of the slice, any
NaN in the slice makes that score NaN, a positive infinite score passes
the positivity mask rather than being suppressed, a masked-out record
is returned normally with its (possibly non-finite) score, and at an
interior peak the coordinates receive the raw IEEE quarter-pixel
update, through which NaN and the infinities flow unfiltered. -/
theorem C9_nonfinite_passthrough (hm : HeatmapF) (b k : ℕ)
    (hb : b < hm.B) (hk : k < hm.K) (_hne : 0 < hm.H * hm.W) :
    ((decodeSF hm.H hm.W hm).2 b k).2.2 = scoresF hm b k ∧
    ((∃ r c, r < hm.H ∧ c < hm.W ∧ hm.val b k r c = RFloat.nan) →
      scoresF hm b k = RFloat.nan) ∧
    (scoresF hm b k = RFloat.pinf → scores_maskF hm b k = 1) ∧
    (scores_maskF hm b k = 0 →
      (decodeSF hm.H hm.W hm).2 b k
        = (RFloat.fin 0, RFloat.fin 0, scoresF hm b k)) ∧
    (∀ px py, px = keys_xF hm.W hm b k → py = keys_yF hm.W hm b k →
      (1 < px ∧ px < hm.W - 1 ∧ 1 < py ∧ py < hm.H - 1) →
      (decodeSF hm.H hm.W hm).2 b k
        = (fadd (.fin (px : ℚ)) (fmul (fsign (fsub (hm.val b k py (px + 1))
              (hm.val b k py (px - 1)))) (.fin (1 / 4))),
           fadd (.fin (py : ℚ)) (fmul (fsign (fsub (hm.val b k (py + 1) px)
              (hm.val b k (py - 1) px))) (.fin (1 / 4))),
           scoresF hm b k)) := by
  refine ⟨?_, ?_, ?_, ?_, ?_⟩
  · rw [decodeSF_cell _ _ _ _ _ hb hk]
    simp only [refineCellF, initKeypointsF]
    split <;> rfl
  · rintro ⟨r, c, hr, hc, hnan⟩
    have hW : 0 < hm.W := by omega
    have hidx : r * hm.W + c < hm.H * hm.W := by
      have h1 : r * hm.W + c < (r + 1) * hm.W := by
        rw [Nat.add_mul, Nat.one_mul]
        omega
      have h2 : (r + 1) * hm.W ≤ hm.H * hm.W := Nat.mul_le_mul_right _ (by omega)
      omega
    have hmem : RFloat.nan ∈ heatmap_vectorF hm b k := by
      rw [heatmap_vectorF]
      refine List.mem_map.mpr ⟨r * hm.W + c, List.mem_range.mpr hidx, ?_⟩
      have hdiv : (r * hm.W + c) / hm.W = r := by
        rw [Nat.mul_comm r hm.W, Nat.mul_add_div hW, Nat.div_eq_of_lt hc,
          Nat.add_zero]
      have hmod : (r * hm.W + c) % hm.W = c := by
        rw [Nat.mul_comm r hm.W, Nat.mul_add_mod, Nat.mod_eq_of_lt hc]
      rw [hdiv, hmod]
      exact hnan
    rw [scoresF]
    cases hvec : heatmap_vectorF hm b k with
    | nil =>
      rw [hvec] at hmem
      simp at hmem
    | cons v rest =>
      rw [hvec] at hmem
      show rest.foldl fmaximum v = RFloat.nan
      rcases List.mem_cons.mp hmem with h | h
      · rw [← h]
        exact foldl_fmaximum_nan rest
      · exact foldl_fmaximum_mem_nan rest v h
  · intro h
    rw [scores_maskF, h]
    rfl
  · intro h0
    have hx : keys_xF hm.W hm b k = 0 := by rw [keys_xF, h0, Nat.mul_zero]
    have hy : keys_yF hm.W hm b k = 0 := by rw [keys_yF, h0, Nat.mul_zero]
    rw [decodeSF_cell _ _ _ _ _ hb hk]
    simp only [refineCellF, initKeypointsF, hx, hy, Nat.cast_zero]
    norm_num
  · intro px py hpx hpy hguard
    subst hpx
    subst hpy
    rw [decodeSF_cell _ _ _ _ _ hb hk]
    simp only [refineCellF, initKeypointsF]
    rw [if_pos hguard]

/-- Claim C9 witness: the infinite-peak example decodes, with no error,
to x = NaN (the sign of the NaN difference of the two infinite
neighbors), a finite y, and score plus-infinity; the NaN example
decodes to the gated record with its NaN score intact. -/
theorem C9_witness :
    (decodeSF 5 5 exInf).2 0 0
      = (RFloat.nan, RFloat.fin (9 / 4), RFloat.pinf) ∧
    (decodeSF 2 2 exNaN).2 0 0 = (RFloat.fin 0, RFloat.fin 0, RFloat.nan) := by
  constructor
  · show (decodeSF exInf.H exInf.W exInf).2 0 0
      = (RFloat.nan, RFloat.fin (9 / 4), RFloat.pinf)
    have h := (C9_nonfinite_passthrough exInf 0 0 (by decide) (by decide)
      (by decide)).2.2.2.2 2 2 (by decide) (by decide) (by decide)
    rw [h, Prod.ext_iff]
    constructor
    · decide
    · rw [Prod.ext_iff]
      constructor
      · norm_num [exInf, fsub, fsign, fmul, fadd]
      · decide
  · show (decodeSF exNaN.H exNaN.W exNaN).2 0 0
      = (RFloat.fin 0, RFloat.fin 0, RFloat.nan)
    have h := C9_nonfinite_passthrough exNaN 0 0 (by decide) (by decide)
      (by decide)
    have hsc : scoresF exNaN 0 0 = RFloat.nan :=
      h.2.1 ⟨0, 0, by decide, by decide, by decide⟩
    have hmask : scores_maskF exNaN 0 0 = 0 := by
      rw [scores_maskF, hsc]
      rfl
    rw [h.2.2.2.1 hmask, hsc]
